import Mathlib

/-!
Verification of the Moravec interest operator from
`src/skimage/feature/interest_cy.pyx` (function `moravec`).

The image buffer is modelled as a flat row-major list of exact rationals
(the source reads through a raw `double*` pointer with linear offsets
`(r + mr) * cols + c + mc`; the spec's data model likewise declares the
image to be a row-major grid).  Double-precision arithmetic is modelled
by exact rational arithmetic; `DBL_MAX` is the exact value of the C
constant, `(2 - 2^-52) * 2^1023`.
-/

namespace Moravec

/-- Exact value of the C constant `DBL_MAX` used to initialise `min_msum`. -/
def DBL_MAX : ℚ := 2 ^ 1024 - 2 ^ 971

/-- Python `range(lo, hi)` as a list of integers (empty when `hi ≤ lo`),
in iteration order. -/
def pyRange (lo hi : ℤ) : List ℤ :=
  (List.range (hi - lo).toNat).map (fun i : ℕ => lo + (i : ℤ))

/-- Read of `image_data[a]` through the raw pointer.  All reads performed
for interior pixels are in bounds; out-of-bounds indices (which the C
code would never produce for interior pixels) default to 0. -/
def getPix (data : List ℚ) (a : ℤ) : ℚ :=
  data.getD a.toNat 0

/-- Lines 76-81 of `interest_cy.pyx`: the accumulation
`msum += (image_data[(r+mr)*cols + c+mc] - image_data[(br+mr)*cols + bc+mc]) ** 2`
over `mr` and `mc` in `range(-block_size, block_size + 1)`. -/
def msum (data : List ℚ) (cols b : ℕ) (r c br bc : ℤ) : ℚ :=
  ((pyRange (-(b : ℤ)) ((b : ℤ) + 1)).map (fun mr =>
    ((pyRange (-(b : ℤ)) ((b : ℤ) + 1)).map (fun mc =>
      (getPix data ((r + mr) * (cols : ℤ) + c + mc)
        - getPix data ((br + mr) * (cols : ℤ) + bc + mc)) ^ 2)).sum)).sum

/-- Lines 71-82 of `interest_cy.pyx`: `min_msum = DBL_MAX`, then the two
candidate-shift loops `for br in range(r - block_size, r + block_size + 1)`,
`for bc in range(c - block_size, c + block_size + 1)`, with the guard
`if br != r and bc != c` and the update `min_msum = min(msum, min_msum)`. -/
def minMsum (data : List ℚ) (cols b : ℕ) (r c : ℤ) : ℚ :=
  (pyRange (r - (b : ℤ)) (r + (b : ℤ) + 1)).foldl (fun acc br =>
    (pyRange (c - (b : ℤ)) (c + (b : ℤ) + 1)).foldl (fun acc2 bc =>
      if br ≠ r ∧ bc ≠ c then min (msum data cols b r c br bc) acc2 else acc2) acc)
    DBL_MAX

/-- The candidate shifts that pass the guard, in iteration order:
`br ∈ range(r-b, r+b+1)`, `bc ∈ range(c-b, c+b+1)`, keeping those with
`br ≠ r` and `bc ≠ c`. -/
def shiftList (b : ℕ) (r c : ℤ) : List (ℤ × ℤ) :=
  (pyRange (r - (b : ℤ)) (r + (b : ℤ) + 1)).flatMap (fun br =>
    ((pyRange (c - (b : ℤ)) (c + (b : ℤ) + 1)).map (fun bc => (br, bc))).filter
      (fun p => decide (p.1 ≠ r ∧ p.2 ≠ c)))

/-- The two buffers the function works with: `image_data` (the pointer into
`cimage`, only ever read) and `out_data` (the pointer into `out`, a freshly
allocated zero array that the loops write into). -/
structure State where
  image_data : List ℚ
  out_data : List ℚ

/-- A single store `out_data[i] = v`. -/
def writeOut (s : State) (i : ℕ) (v : ℚ) : State :=
  ⟨s.image_data, s.out_data.set i v⟩

/-- Lines 62-83 of `interest_cy.pyx`: `out = np.zeros_like(image)` followed by
the pixel loops `for r in range(2*block_size, rows - 2*block_size)`,
`for c in range(2*block_size, cols - 2*block_size)` each ending in the store
`out_data[r * cols + c] = min_msum`.  `min_msum` is computed from the
`image_data` buffer held in the state at that point. -/
def run (data : List ℚ) (rows cols b : ℕ) : State :=
  (pyRange (2 * (b : ℤ)) ((rows : ℤ) - 2 * (b : ℤ))).foldl (fun s r =>
    (pyRange (2 * (b : ℤ)) ((cols : ℤ) - 2 * (b : ℤ))).foldl (fun s2 c =>
      writeOut s2 ((r * (cols : ℤ) + c).toNat) (minMsum s2.image_data cols b r c)) s)
    ⟨data, List.replicate (rows * cols) 0⟩

/-- The returned response map `out` (flat, row-major, `rows * cols` cells). -/
def moravec (data : List ℚ) (rows cols b : ℕ) : List ℚ :=
  (run data rows cols b).out_data

/-- Total read of an output cell. -/
def cell (o : List ℚ) (i : ℕ) : ℚ :=
  o.getD i 0

/-- Pixel access `image[i][j]` of the row-major image, as the spec's SSD
formula states it. -/
def pix (data : List ℚ) (cols : ℕ) (i j : ℤ) : ℚ :=
  getPix data (i * (cols : ℤ) + j)

/-- The SSD of the spec, stated over window offsets
`(mr, mc) ∈ [-b, b] × [-b, b]`:
`Σ (image[r+mr][c+mc] - image[br+mr][bc+mc])^2`. -/
def ssdSpec (data : List ℚ) (cols b : ℕ) (r c br bc : ℤ) : ℚ :=
  ((pyRange (-(b : ℤ)) ((b : ℤ) + 1)).flatMap (fun mr =>
    (pyRange (-(b : ℤ)) ((b : ℤ) + 1)).map (fun mc =>
      (pix data cols (r + mr) (c + mc) - pix data cols (br + mr) (bc + mc)) ^ 2))).sum

/-- Lines 56-60 of `interest_cy.pyx` record the successive assignments to the
`cimage` buffer: `if image.ndim == 3: cimage = rgb2grey(image)` followed
unconditionally by `cimage = np.ascontiguousarray(img_as_float(image))` —
note the second right-hand side reads `image`, not `cimage`.  `rgb2grey`,
`img_as_float` and `np.ascontiguousarray` are external collaborators and are
taken as parameters. -/
def cimageAssignments {I : Type} (rgb2grey img_as_float ascontiguousarray : I → I)
    (ndim : ℕ) (image : I) : List I :=
  (if ndim = 3 then [rgb2grey image] else []) ++ [ascontiguousarray (img_as_float image)]

/-- The value `cimage` holds when the pixel loops start reading it: the last
assignment wins. -/
def cimageUsed {I : Type} (rgb2grey img_as_float ascontiguousarray : I → I)
    (ndim : ℕ) (image : I) : I :=
  (cimageAssignments rgb2grey img_as_float ascontiguousarray ndim image).getLastD image

/-- The docstring's reference image: a 7 x 7 all-zero image with a single 1.0
at position (3, 3), row-major. -/
def sq7 : List ℚ :=
  [0, 0, 0, 0, 0, 0, 0,
   0, 0, 0, 0, 0, 0, 0,
   0, 0, 0, 0, 0, 0, 0,
   0, 0, 0, 1, 0, 0, 0,
   0, 0, 0, 0, 0, 0, 0,
   0, 0, 0, 0, 0, 0, 0,
   0, 0, 0, 0, 0, 0, 0]

/-- The response map the docstring promises for `sq7` with `block_size = 1`. -/
def out7 : List ℚ :=
  [0, 0, 0, 0, 0, 0, 0,
   0, 0, 0, 0, 0, 0, 0,
   0, 0, 1, 1, 1, 0, 0,
   0, 0, 1, 2, 1, 0, 0,
   0, 0, 1, 1, 1, 0, 0,
   0, 0, 0, 0, 0, 0, 0,
   0, 0, 0, 0, 0, 0, 0]

/-- The running-minimum accumulation pattern of the source: `acc` starts at
`A` and each element contributes `min (f x) acc`. -/
def foldMin {α β : Type} [LinearOrder β] (f : α → β) (A : β) (l : List α) : β :=
  l.foldl (fun acc x => min (f x) acc) A

/-- The interior pixels `(r, c)` in iteration order of the two outer loops. -/
def interiorPairs (rows cols b : ℕ) : List (ℤ × ℤ) :=
  (pyRange (2 * (b : ℤ)) ((rows : ℤ) - 2 * (b : ℤ))).flatMap (fun r =>
    (pyRange (2 * (b : ℤ)) ((cols : ℤ) - 2 * (b : ℤ))).map (fun c => (r, c)))

/-- The sequence of stores the pixel loops perform on the output buffer,
flattened into a single list of `(r, c)` targets. -/
def applyWrites (data : List ℚ) (cols b : ℕ) (L : List (ℤ × ℤ)) (o : List ℚ) : List ℚ :=
  L.foldl (fun o2 p =>
    o2.set ((p.1 * (cols : ℤ) + p.2).toNat) (minMsum data cols b p.1 p.2)) o

/-- Integer mirror of `DBL_MAX` (the constant is an integer), given as a
literal so that concrete runs of the mirror evaluate by kernel arithmetic;
`DBL_MAXZ_eq` below identifies it with `2 ^ 1024 - 2 ^ 971`. -/
def DBL_MAXZ : ℤ :=
  179769313486231570814527423731704356798070567525844996598917476803157260780028538760589558632766878171540458953514382464234321326889464182768467546703537516986049910576551282076245490090389328944075868508455133942304583236903222948165808559332123348274797826204144723168738177180919299881250404026184124858368

/-- Integer mirror of `getPix`, for images whose sample values are integers. -/
def getPixZ (data : List ℤ) (a : ℤ) : ℤ :=
  data.getD a.toNat 0

/-- Integer mirror of `msum`. -/
def msumZ (data : List ℤ) (cols b : ℕ) (r c br bc : ℤ) : ℤ :=
  ((pyRange (-(b : ℤ)) ((b : ℤ) + 1)).map (fun mr =>
    ((pyRange (-(b : ℤ)) ((b : ℤ) + 1)).map (fun mc =>
      (getPixZ data ((r + mr) * (cols : ℤ) + c + mc)
        - getPixZ data ((br + mr) * (cols : ℤ) + bc + mc)) ^ 2)).sum)).sum

/-- Integer mirror of `minMsum`. -/
def minMsumZ (data : List ℤ) (cols b : ℕ) (r c : ℤ) : ℤ :=
  (pyRange (r - (b : ℤ)) (r + (b : ℤ) + 1)).foldl (fun acc br =>
    (pyRange (c - (b : ℤ)) (c + (b : ℤ) + 1)).foldl (fun acc2 bc =>
      if br ≠ r ∧ bc ≠ c then min (msumZ data cols b r c br bc) acc2 else acc2) acc)
    DBL_MAXZ

/-- Integer mirror of `applyWrites`. -/
def applyWritesZ (data : List ℤ) (cols b : ℕ) (L : List (ℤ × ℤ)) (o : List ℤ) : List ℤ :=
  L.foldl (fun o2 p =>
    o2.set ((p.1 * (cols : ℤ) + p.2).toNat) (minMsumZ data cols b p.1 p.2)) o

/-- Integer mirror of the whole response computation; it is related to
`moravec` by mapping `Int.cast` over the buffers. -/
def moravecZ (data : List ℤ) (rows cols b : ℕ) : List ℤ :=
  applyWritesZ data cols b (interiorPairs rows cols b) (List.replicate (rows * cols) 0)

/-- Integer copy of `sq7`. -/
def sq7Z : List ℤ :=
  [0, 0, 0, 0, 0, 0, 0,
   0, 0, 0, 0, 0, 0, 0,
   0, 0, 0, 0, 0, 0, 0,
   0, 0, 0, 1, 0, 0, 0,
   0, 0, 0, 0, 0, 0, 0,
   0, 0, 0, 0, 0, 0, 0,
   0, 0, 0, 0, 0, 0, 0]

/-- Integer copy of `out7`. -/
def out7Z : List ℤ :=
  [0, 0, 0, 0, 0, 0, 0,
   0, 0, 0, 0, 0, 0, 0,
   0, 0, 1, 1, 1, 0, 0,
   0, 0, 1, 2, 1, 0, 0,
   0, 0, 1, 1, 1, 0, 0,
   0, 0, 0, 0, 0, 0, 0,
   0, 0, 0, 0, 0, 0, 0]

theorem mem_pyRange {lo hi x : ℤ} : x ∈ pyRange lo hi ↔ lo ≤ x ∧ x < hi := by
  simp only [pyRange, List.mem_map, List.mem_range]
  constructor
  · rintro ⟨i, hi2, rfl⟩
    omega
  · intro h
    exact ⟨(x - lo).toNat, by omega, by omega⟩

theorem length_pyRange (lo hi : ℤ) : (pyRange lo hi).length = (hi - lo).toNat := by
  simp [pyRange]

theorem cell_eq_getElem?_getD (o : List ℚ) (i : ℕ) : cell o i = (o[i]?).getD 0 :=
  List.getD_eq_getElem?_getD o i 0

theorem cell_set_ne (o : List ℚ) {i j : ℕ} (v : ℚ) (h : j ≠ i) :
    cell (o.set j v) i = cell o i := by
  rw [cell_eq_getElem?_getD, cell_eq_getElem?_getD, List.getElem?_set_ne h]

theorem cell_set_self (o : List ℚ) {i : ℕ} (v : ℚ) (h : i < o.length) :
    cell (o.set i v) i = v := by
  rw [cell_eq_getElem?_getD]
  simp [List.getElem?_set_self, h]

theorem cell_replicate (n i : ℕ) : cell (List.replicate n (0 : ℚ)) i = 0 := by
  rw [cell_eq_getElem?_getD]
  rcases lt_or_le i n with h | h
  · simp [List.getElem?_replicate, h]
  · simp [List.getElem?_replicate, Nat.not_lt.mpr h]

theorem foldMin_cons {α β : Type} [LinearOrder β] (f : α → β) (A : β) (y : α)
    (t : List α) :
    foldMin f A (y :: t) = foldMin f (min (f y) A) t := rfl

theorem foldMin_le_init {α β : Type} [LinearOrder β] (f : α → β) (A : β) (l : List α) :
    foldMin f A l ≤ A := by
  induction l generalizing A with
  | nil => exact le_refl A
  | cons y t ih => exact le_trans (ih (min (f y) A)) (min_le_right _ _)

theorem foldMin_le_mem {α β : Type} [LinearOrder β] (f : α → β) {x : α} {l : List α}
    (hx : x ∈ l) : ∀ A : β, foldMin f A l ≤ f x := by
  induction hx with
  | head as =>
    intro A
    rw [foldMin_cons]
    exact le_trans (foldMin_le_init f _ as) (min_le_left _ _)
  | tail b hmem ih =>
    intro A
    rw [foldMin_cons]
    exact ih _

theorem foldMin_cases {α β : Type} [LinearOrder β] (f : α → β) (A : β) (l : List α) :
    foldMin f A l = A ∨ ∃ x ∈ l, foldMin f A l = f x := by
  induction l generalizing A with
  | nil => exact Or.inl rfl
  | cons y t ih =>
    rw [foldMin_cons]
    rcases ih (min (f y) A) with h | ⟨x, hx, hfx⟩
    · rcases min_choice (f y) A with hm | hm
      · exact Or.inr ⟨y, List.mem_cons_self y t, h.trans hm⟩
      · exact Or.inl (h.trans hm)
    · exact Or.inr ⟨x, List.mem_cons_of_mem y hx, hfx⟩

theorem foldMin_append {α β : Type} [LinearOrder β] (f : α → β) (A : β) (u v : List α) :
    foldMin f A (u ++ v) = foldMin f (foldMin f A u) v := by
  unfold foldMin
  rw [List.foldl_append]

theorem foldMin_map {α β γ : Type} [LinearOrder γ] (f : β → γ) (h : α → β) (A : γ) (l : List α) :
    foldMin f A (l.map h) = foldMin (fun x => f (h x)) A l := by
  unfold foldMin
  rw [List.foldl_map]

theorem foldl_guard_eq_foldMin {α β : Type} [LinearOrder β] (f : α → β) (q : α → Prop)
    [DecidablePred q] (l : List α) (A : β) :
    l.foldl (fun acc x => if q x then min (f x) acc else acc) A
      = foldMin f A (l.filter (fun x => decide (q x))) := by
  induction l generalizing A with
  | nil => rfl
  | cons y t ih =>
    by_cases hq : q y
    · rw [List.foldl_cons, if_pos hq, List.filter_cons_of_pos (by simpa using hq),
        foldMin_cons, ih]
    · rw [List.foldl_cons, if_neg hq, List.filter_cons_of_neg (by simpa using hq), ih]

theorem foldMin_flatMap {α β γ : Type} [LinearOrder γ] (f : β → γ) (g : α → List β)
    (l : List α) (A : γ) :
    foldMin f A (l.flatMap g) = l.foldl (fun acc x => foldMin f acc (g x)) A := by
  induction l generalizing A with
  | nil => rfl
  | cons y t ih =>
    rw [List.flatMap_cons, foldMin_append, ih, List.foldl_cons]

theorem minMsum_eq_foldMin (data : List ℚ) (cols b : ℕ) (r c : ℤ) :
    minMsum data cols b r c
      = foldMin (fun p : ℤ × ℤ => msum data cols b r c p.1 p.2) DBL_MAX
          (shiftList b r c) := by
  unfold minMsum shiftList
  rw [foldMin_flatMap]
  congr 1
  funext acc br
  rw [foldl_guard_eq_foldMin (fun bc => msum data cols b r c br bc)
    (fun bc => br ≠ r ∧ bc ≠ c), List.filter_map, foldMin_map]
  rfl

theorem mem_shiftList {b : ℕ} {r c : ℤ} {p : ℤ × ℤ} :
    p ∈ shiftList b r c ↔
      (r - b ≤ p.1 ∧ p.1 ≤ r + b) ∧ (c - b ≤ p.2 ∧ p.2 ≤ c + b) ∧ p.1 ≠ r ∧ p.2 ≠ c := by
  obtain ⟨br, bc⟩ := p
  unfold shiftList
  simp only [List.mem_flatMap, List.mem_filter, List.mem_map, mem_pyRange,
    decide_eq_true_eq]
  constructor
  · rintro ⟨br2, hbr2, ⟨bc2, hbc2, heq⟩, hne⟩
    obtain ⟨rfl, rfl⟩ := Prod.mk.injEq br2 bc2 br bc ▸ heq
    refine ⟨⟨?_, ?_⟩, ⟨?_, ?_⟩, ?_⟩ <;> omega
  · rintro ⟨⟨h1, h2⟩, ⟨h3, h4⟩, h5, h6⟩
    exact ⟨br, by omega, ⟨bc, by omega, rfl⟩, h5, h6⟩

theorem diag_mem_shiftList {b : ℕ} (hb : 1 ≤ b) (r c : ℤ) :
    (r - 1, c - 1) ∈ shiftList b r c := by
  rw [mem_shiftList]
  refine ⟨⟨?_, ?_⟩, ⟨?_, ?_⟩, ?_, ?_⟩ <;> omega

theorem shiftList_ne_nil {b : ℕ} (hb : 1 ≤ b) (r c : ℤ) : shiftList b r c ≠ [] :=
  List.ne_nil_of_mem (diag_mem_shiftList hb r c)

theorem ssdSpec_eq_msum (data : List ℚ) (cols b : ℕ) (r c br bc : ℤ) :
    ssdSpec data cols b r c br bc = msum data cols b r c br bc := by
  unfold ssdSpec msum pix
  simp only [List.flatMap, List.sum_flatten, List.map_map, Function.comp_def]
  simp [add_assoc]

theorem applyWrites_cons (data : List ℚ) (cols b : ℕ) (q : ℤ × ℤ) (t : List (ℤ × ℤ))
    (o : List ℚ) :
    applyWrites data cols b (q :: t) o
      = applyWrites data cols b t
          (o.set ((q.1 * (cols : ℤ) + q.2).toNat) (minMsum data cols b q.1 q.2)) := rfl

theorem applyWrites_append (data : List ℚ) (cols b : ℕ) (u v : List (ℤ × ℤ))
    (o : List ℚ) :
    applyWrites data cols b (u ++ v) o
      = applyWrites data cols b v (applyWrites data cols b u o) := by
  unfold applyWrites
  rw [List.foldl_append]

theorem applyWrites_length (data : List ℚ) (cols b : ℕ) (L : List (ℤ × ℤ)) :
    ∀ o : List ℚ, (applyWrites data cols b L o).length = o.length := by
  induction L with
  | nil => intro o; rfl
  | cons q t ih =>
    intro o
    rw [applyWrites_cons, ih, List.length_set]

theorem run_inner_eq (cols b : ℕ) (r : ℤ) (l : List ℤ) :
    ∀ s : State,
      l.foldl (fun s2 c => writeOut s2 ((r * (cols : ℤ) + c).toNat)
          (minMsum s2.image_data cols b r c)) s
        = ⟨s.image_data,
            applyWrites s.image_data cols b (l.map (fun c => (r, c))) s.out_data⟩ := by
  induction l with
  | nil => intro s; rfl
  | cons y t ih =>
    intro s
    simp only [List.foldl_cons]
    rw [ih]
    rfl

theorem run_outer_eq (cols b : ℕ) (inner : List ℤ) (L : List ℤ) :
    ∀ s : State,
      L.foldl (fun s2 r => inner.foldl (fun s3 c => writeOut s3 ((r * (cols : ℤ) + c).toNat)
          (minMsum s3.image_data cols b r c)) s2) s
        = ⟨s.image_data,
            applyWrites s.image_data cols b
              (L.flatMap (fun r => inner.map (fun c => (r, c)))) s.out_data⟩ := by
  induction L with
  | nil => intro s; rfl
  | cons y t ih =>
    intro s
    simp only [List.foldl_cons]
    rw [run_inner_eq, ih, List.flatMap_cons, applyWrites_append]

theorem run_eq (data : List ℚ) (rows cols b : ℕ) :
    run data rows cols b
      = ⟨data, applyWrites data cols b (interiorPairs rows cols b)
          (List.replicate (rows * cols) 0)⟩ := by
  unfold run interiorPairs
  rw [run_outer_eq]

theorem mem_interiorPairs {rows cols b : ℕ} {p : ℤ × ℤ} :
    p ∈ interiorPairs rows cols b ↔
      (2 * (b : ℤ) ≤ p.1 ∧ p.1 < (rows : ℤ) - 2 * b)
        ∧ (2 * (b : ℤ) ≤ p.2 ∧ p.2 < (cols : ℤ) - 2 * b) := by
  obtain ⟨r, c⟩ := p
  unfold interiorPairs
  simp only [List.mem_flatMap, List.mem_map, mem_pyRange]
  constructor
  · rintro ⟨r2, hr2, c2, hc2, heq⟩
    obtain ⟨rfl, rfl⟩ := Prod.mk.injEq r2 c2 r c ▸ heq
    exact ⟨hr2, hc2⟩
  · rintro ⟨hr, hc⟩
    exact ⟨r, hr, c, hc, rfl⟩

theorem index_inj {cols : ℕ} {r1 c1 r2 c2 : ℤ} (h1 : 0 ≤ c1) (h2 : c1 < (cols : ℤ))
    (h3 : 0 ≤ c2) (h4 : c2 < (cols : ℤ))
    (he : r1 * (cols : ℤ) + c1 = r2 * (cols : ℤ) + c2) : r1 = r2 ∧ c1 = c2 := by
  have hc : c1 = c2 := by
    have e1 : (r1 * (cols : ℤ) + c1) % (cols : ℤ) = c1 % (cols : ℤ) := by
      rw [add_comm, mul_comm, Int.add_mul_emod_self_left]
    have e2 : (r2 * (cols : ℤ) + c2) % (cols : ℤ) = c2 % (cols : ℤ) := by
      rw [add_comm, mul_comm, Int.add_mul_emod_self_left]
    have m1 : c1 % (cols : ℤ) = c1 := Int.emod_eq_of_lt h1 h2
    have m2 : c2 % (cols : ℤ) = c2 := Int.emod_eq_of_lt h3 h4
    rw [he, e2, m2] at e1
    rw [m1] at e1
    exact e1.symm
  refine ⟨?_, hc⟩
  have hcols : (cols : ℤ) ≠ 0 := by omega
  have : r1 * (cols : ℤ) = r2 * (cols : ℤ) := by omega
  exact mul_right_cancel₀ hcols this

theorem cell_applyWrites_not_written (data : List ℚ) (cols b : ℕ) (L : List (ℤ × ℤ))
    (i : ℕ) :
    ∀ o : List ℚ, (∀ p ∈ L, (p.1 * (cols : ℤ) + p.2).toNat ≠ i) →
      cell (applyWrites data cols b L o) i = cell o i := by
  induction L with
  | nil => intro o _; rfl
  | cons q t ih =>
    intro o h
    rw [applyWrites_cons, ih _ (fun p hp => h p (List.mem_cons_of_mem q hp)),
      cell_set_ne _ _ (h q (List.mem_cons_self q t))]

theorem cell_applyWrites_written (data : List ℚ) (cols b : ℕ) (L : List (ℤ × ℤ))
    (i : ℕ) (w : ℚ) :
    ∀ o : List ℚ, (∃ p ∈ L, (p.1 * (cols : ℤ) + p.2).toNat = i) →
      (∀ p ∈ L, (p.1 * (cols : ℤ) + p.2).toNat = i → minMsum data cols b p.1 p.2 = w) →
      i < o.length →
      cell (applyWrites data cols b L o) i = w := by
  induction L with
  | nil =>
    intro o hex _ _
    rcases hex with ⟨p, hp, _⟩
    cases hp
  | cons q t ih =>
    intro o hex hall hlen
    rw [applyWrites_cons]
    by_cases hq : (q.1 * (cols : ℤ) + q.2).toNat = i
    · by_cases hex2 : ∃ p ∈ t, (p.1 * (cols : ℤ) + p.2).toNat = i
      · exact ih _ hex2 (fun p hp hpi => hall p (List.mem_cons_of_mem q hp) hpi)
          (by rw [List.length_set]; exact hlen)
      · rw [cell_applyWrites_not_written _ _ _ _ _ _
          (fun p hp hpi => hex2 ⟨p, hp, hpi⟩), hq]
        rw [cell_set_self _ _ hlen]
        exact hall q (List.mem_cons_self q t) hq
    · have hex3 : ∃ p ∈ t, (p.1 * (cols : ℤ) + p.2).toNat = i := by
        rcases hex with ⟨p, hp, hpi⟩
        rcases List.mem_cons.mp hp with rfl | hp2
        · exact absurd hpi hq
        · exact ⟨p, hp2, hpi⟩
      rw [ih _ hex3 (fun p hp hpi => hall p (List.mem_cons_of_mem q hp) hpi)
        (by rw [List.length_set]; exact hlen)]

theorem interior_index_eq {rows cols b : ℕ} {p : ℤ × ℤ} {r c : ℕ} (hc : c < cols)
    (hp : p ∈ interiorPairs rows cols b)
    (hpi : (p.1 * (cols : ℤ) + p.2).toNat = r * cols + c) :
    p.1 = (r : ℤ) ∧ p.2 = (c : ℤ) := by
  obtain ⟨⟨hp1, hp2⟩, hp3, hp4⟩ := mem_interiorPairs.mp hp
  have hnn : 0 ≤ p.1 * (cols : ℤ) + p.2 := by
    have : 0 ≤ p.1 * (cols : ℤ) := mul_nonneg (by omega) (by omega)
    omega
  have he : p.1 * (cols : ℤ) + p.2 = (r : ℤ) * (cols : ℤ) + (c : ℤ) := by
    have : ((p.1 * (cols : ℤ) + p.2).toNat : ℤ) = ((r * cols + c : ℕ) : ℤ) := by
      rw [hpi]
    rw [Int.toNat_of_nonneg hnn] at this
    rw [this]
    push_cast
    ring
  exact index_inj (by omega) (by omega) (by omega) (by omega) he

theorem moravec_length (data : List ℚ) (rows cols b : ℕ) :
    (moravec data rows cols b).length = rows * cols := by
  unfold moravec
  rw [run_eq]
  rw [applyWrites_length]
  exact List.length_replicate (rows * cols) 0

theorem moravec_cell (data : List ℚ) (rows cols b : ℕ) (r c : ℕ) (hr : r < rows)
    (hc : c < cols) :
    cell (moravec data rows cols b) (r * cols + c)
      = if 2 * b ≤ r ∧ r + 2 * b < rows ∧ 2 * b ≤ c ∧ c + 2 * b < cols
          then minMsum data cols b r c else 0 := by
  unfold moravec
  rw [run_eq]
  by_cases hint : 2 * b ≤ r ∧ r + 2 * b < rows ∧ 2 * b ≤ c ∧ c + 2 * b < cols
  · rw [if_pos hint]
    apply cell_applyWrites_written
    · refine ⟨((r : ℤ), (c : ℤ)), mem_interiorPairs.mpr ⟨⟨?_, ?_⟩, ?_, ?_⟩, ?_⟩
      · omega
      · omega
      · omega
      · omega
      · have : (r : ℤ) * (cols : ℤ) + (c : ℤ) = ((r * cols + c : ℕ) : ℤ) := by
          push_cast
          ring
        rw [this, Int.toNat_natCast]
    · intro p hp hpi
      obtain ⟨e1, e2⟩ := interior_index_eq hc hp hpi
      rw [e1, e2]
    · rw [List.length_replicate]
      calc r * cols + c < r * cols + cols := by omega
        _ = (r + 1) * cols := by ring
        _ ≤ rows * cols := Nat.mul_le_mul_right cols (by omega)
  · rw [if_neg hint]
    rw [cell_applyWrites_not_written]
    · exact cell_replicate _ _
    · intro p hp hpi
      obtain ⟨e1, e2⟩ := interior_index_eq hc hp hpi
      obtain ⟨⟨hp1, hp2⟩, hp3, hp4⟩ := mem_interiorPairs.mp hp
      rw [e1] at hp1 hp2
      rw [e2] at hp3 hp4
      exact hint ⟨by omega, by omega, by omega, by omega⟩

theorem DBL_MAX_pos : 0 < DBL_MAX := by
  norm_num [DBL_MAX]

theorem getPix_bounds {data : List ℚ} (hpix : ∀ x ∈ data, 0 ≤ x ∧ x ≤ 1) (a : ℤ) :
    0 ≤ getPix data a ∧ getPix data a ≤ 1 := by
  unfold getPix
  rcases lt_or_le a.toNat data.length with h | h
  · rw [List.getD_eq_getElem _ _ h]
    exact hpix _ (List.getElem_mem h)
  · rw [List.getD_eq_default _ _ h]
    norm_num

theorem msum_nonneg (data : List ℚ) (cols b : ℕ) (r c br bc : ℤ) :
    0 ≤ msum data cols b r c br bc := by
  unfold msum
  apply List.sum_nonneg
  intro x hx
  rcases List.mem_map.mp hx with ⟨mr, _, rfl⟩
  apply List.sum_nonneg
  intro y hy
  rcases List.mem_map.mp hy with ⟨mc, _, rfl⟩
  positivity

theorem msum_le_sq (data : List ℚ) (cols b : ℕ) (r c br bc : ℤ)
    (hpix : ∀ x ∈ data, 0 ≤ x ∧ x ≤ 1) :
    msum data cols b r c br bc ≤ ((2 * b + 1 : ℕ) : ℚ) * ((2 * b + 1 : ℕ) : ℚ) := by
  unfold msum
  have hlen : (pyRange (-(b : ℤ)) ((b : ℤ) + 1)).length = 2 * b + 1 := by
    rw [length_pyRange]
    omega
  have hterm : ∀ (u v : ℤ), (getPix data u - getPix data v) ^ 2 ≤ 1 := by
    intro u v
    obtain ⟨hu0, hu1⟩ := getPix_bounds hpix u
    obtain ⟨hv0, hv1⟩ := getPix_bounds hpix v
    nlinarith
  have hinner : ∀ mr : ℤ,
      ((pyRange (-(b : ℤ)) ((b : ℤ) + 1)).map (fun mc =>
        (getPix data ((r + mr) * (cols : ℤ) + c + mc)
          - getPix data ((br + mr) * (cols : ℤ) + bc + mc)) ^ 2)).sum
        ≤ ((2 * b + 1 : ℕ) : ℚ) := by
    intro mr
    calc ((pyRange (-(b : ℤ)) ((b : ℤ) + 1)).map (fun mc =>
          (getPix data ((r + mr) * (cols : ℤ) + c + mc)
            - getPix data ((br + mr) * (cols : ℤ) + bc + mc)) ^ 2)).sum
        ≤ ((pyRange (-(b : ℤ)) ((b : ℤ) + 1)).map (fun mc =>
            (getPix data ((r + mr) * (cols : ℤ) + c + mc)
              - getPix data ((br + mr) * (cols : ℤ) + bc + mc)) ^ 2)).length • (1 : ℚ) := by
          apply List.sum_le_card_nsmul
          intro x hx
          rcases List.mem_map.mp hx with ⟨mc, _, rfl⟩
          exact hterm _ _
      _ = ((2 * b + 1 : ℕ) : ℚ) := by
          rw [List.length_map, hlen, nsmul_eq_mul, mul_one]
  calc ((pyRange (-(b : ℤ)) ((b : ℤ) + 1)).map (fun mr =>
        ((pyRange (-(b : ℤ)) ((b : ℤ) + 1)).map (fun mc =>
          (getPix data ((r + mr) * (cols : ℤ) + c + mc)
            - getPix data ((br + mr) * (cols : ℤ) + bc + mc)) ^ 2)).sum)).sum
      ≤ ((pyRange (-(b : ℤ)) ((b : ℤ) + 1)).map (fun mr =>
          ((pyRange (-(b : ℤ)) ((b : ℤ) + 1)).map (fun mc =>
            (getPix data ((r + mr) * (cols : ℤ) + c + mc)
              - getPix data ((br + mr) * (cols : ℤ) + bc + mc)) ^ 2)).sum)).length
            • ((2 * b + 1 : ℕ) : ℚ) := by
        apply List.sum_le_card_nsmul
        intro x hx
        rcases List.mem_map.mp hx with ⟨mr, _, rfl⟩
        exact hinner mr
    _ = ((2 * b + 1 : ℕ) : ℚ) * ((2 * b + 1 : ℕ) : ℚ) := by
        rw [List.length_map, hlen, nsmul_eq_mul]

theorem bound_lt_DBL_MAX {b : ℕ} (hb31 : b < 2 ^ 31) :
    ((2 * b + 1 : ℕ) : ℚ) * ((2 * b + 1 : ℕ) : ℚ) < DBL_MAX := by
  have h1 : ((2 * b + 1 : ℕ) : ℚ) ≤ ((2 ^ 32 : ℕ) : ℚ) := by
    have hn : (2 * b + 1 : ℕ) ≤ 2 ^ 32 := by
      norm_num at hb31 ⊢
      omega
    exact_mod_cast hn
  have h2 : (0 : ℚ) ≤ ((2 * b + 1 : ℕ) : ℚ) := by positivity
  have h3 : ((2 * b + 1 : ℕ) : ℚ) * ((2 * b + 1 : ℕ) : ℚ)
      ≤ ((2 ^ 32 : ℕ) : ℚ) * ((2 ^ 32 : ℕ) : ℚ) :=
    mul_le_mul h1 h1 h2 (by positivity)
  calc ((2 * b + 1 : ℕ) : ℚ) * ((2 * b + 1 : ℕ) : ℚ)
      ≤ ((2 ^ 32 : ℕ) : ℚ) * ((2 ^ 32 : ℕ) : ℚ) := h3
    _ < DBL_MAX := by
        unfold DBL_MAX
        push_cast
        norm_num

theorem minMsum_le_diag (data : List ℚ) (cols b : ℕ) (r c : ℤ) (hb : 1 ≤ b) :
    minMsum data cols b r c ≤ msum data cols b r c (r - 1) (c - 1) := by
  rw [minMsum_eq_foldMin]
  exact foldMin_le_mem _ (diag_mem_shiftList hb r c) _

theorem minMsum_lt_DBL_MAX (data : List ℚ) (cols b : ℕ) (r c : ℤ) (hb : 1 ≤ b)
    (hb31 : b < 2 ^ 31) (hpix : ∀ x ∈ data, 0 ≤ x ∧ x ≤ 1) :
    minMsum data cols b r c < DBL_MAX := by
  calc minMsum data cols b r c ≤ msum data cols b r c (r - 1) (c - 1) :=
      minMsum_le_diag data cols b r c hb
    _ ≤ ((2 * b + 1 : ℕ) : ℚ) * ((2 * b + 1 : ℕ) : ℚ) := msum_le_sq data cols b r c _ _ hpix
    _ < DBL_MAX := bound_lt_DBL_MAX hb31

theorem minMsum_attained (data : List ℚ) (cols b : ℕ) (r c : ℤ) (hb : 1 ≤ b)
    (hb31 : b < 2 ^ 31) (hpix : ∀ x ∈ data, 0 ≤ x ∧ x ≤ 1) :
    ∃ p ∈ shiftList b r c, minMsum data cols b r c = msum data cols b r c p.1 p.2 := by
  rcases foldMin_cases (fun p : ℤ × ℤ => msum data cols b r c p.1 p.2) DBL_MAX
      (shiftList b r c) with h | h
  · exfalso
    have h1 : minMsum data cols b r c < DBL_MAX :=
      minMsum_lt_DBL_MAX data cols b r c hb hb31 hpix
    rw [minMsum_eq_foldMin, h] at h1
    exact lt_irrefl _ h1
  · rw [minMsum_eq_foldMin]
    exact h

theorem minMsum_nonneg (data : List ℚ) (cols b : ℕ) (r c : ℤ) :
    0 ≤ minMsum data cols b r c := by
  rw [minMsum_eq_foldMin]
  rcases foldMin_cases (fun p : ℤ × ℤ => msum data cols b r c p.1 p.2) DBL_MAX
      (shiftList b r c) with h | ⟨p, _, h⟩
  · rw [h]
    exact le_of_lt DBL_MAX_pos
  · rw [h]
    exact msum_nonneg data cols b r c p.1 p.2

theorem list_sum_cast (l : List ℤ) :
    ((l.sum : ℤ) : ℚ) = (l.map (fun z : ℤ => (z : ℚ))).sum := by
  push_cast
  rfl

theorem getPix_cast (data : List ℤ) (a : ℤ) :
    getPix (data.map (fun z : ℤ => (z : ℚ))) a = ((getPixZ data a : ℤ) : ℚ) := by
  unfold getPix getPixZ
  rw [show (0 : ℚ) = (((0 : ℤ) : ℤ) : ℚ) by norm_num]
  exact List.getD_map _ _ _

theorem msum_cast (data : List ℤ) (cols b : ℕ) (r c br bc : ℤ) :
    msum (data.map (fun z : ℤ => (z : ℚ))) cols b r c br bc
      = ((msumZ data cols b r c br bc : ℤ) : ℚ) := by
  unfold msum msumZ
  rw [list_sum_cast, List.map_map]
  congr 1
  apply List.map_congr_left
  intro mr _
  simp only [Function.comp_apply]
  rw [list_sum_cast, List.map_map]
  congr 1
  apply List.map_congr_left
  intro mc _
  simp only [Function.comp_apply]
  rw [getPix_cast, getPix_cast]
  push_cast
  ring

theorem foldMin_cast {α : Type} (f : α → ℤ) (l : List α) :
    ∀ A : ℤ, ((foldMin f A l : ℤ) : ℚ)
      = foldMin (fun x => ((f x : ℤ) : ℚ)) ((A : ℤ) : ℚ) l := by
  induction l with
  | nil => intro A; rfl
  | cons y t ih =>
    intro A
    rw [foldMin_cons, foldMin_cons, ih, Int.cast_min]

theorem minMsumZ_eq_foldMin (data : List ℤ) (cols b : ℕ) (r c : ℤ) :
    minMsumZ data cols b r c
      = foldMin (fun p : ℤ × ℤ => msumZ data cols b r c p.1 p.2) DBL_MAXZ
          (shiftList b r c) := by
  unfold minMsumZ shiftList
  rw [foldMin_flatMap]
  congr 1
  funext acc br
  rw [foldl_guard_eq_foldMin (fun bc => msumZ data cols b r c br bc)
    (fun bc => br ≠ r ∧ bc ≠ c), List.filter_map, foldMin_map]
  rfl

theorem DBL_MAXZ_eq : DBL_MAXZ = 2 ^ 1024 - 2 ^ 971 := by
  unfold DBL_MAXZ
  norm_num

theorem DBL_MAX_cast : DBL_MAX = ((DBL_MAXZ : ℤ) : ℚ) := by
  unfold DBL_MAX
  rw [DBL_MAXZ_eq, Int.cast_sub, Int.cast_pow, Int.cast_pow]
  norm_num

theorem minMsum_cast (data : List ℤ) (cols b : ℕ) (r c : ℤ) :
    minMsum (data.map (fun z : ℤ => (z : ℚ))) cols b r c
      = ((minMsumZ data cols b r c : ℤ) : ℚ) := by
  rw [minMsum_eq_foldMin, minMsumZ_eq_foldMin, foldMin_cast]
  have hf : (fun p : ℤ × ℤ => msum (data.map (fun z : ℤ => (z : ℚ))) cols b r c p.1 p.2)
      = fun p : ℤ × ℤ => ((msumZ data cols b r c p.1 p.2 : ℤ) : ℚ) :=
    funext fun p => msum_cast data cols b r c p.1 p.2
  rw [hf, DBL_MAX_cast]

theorem applyWritesZ_cons (data : List ℤ) (cols b : ℕ) (q : ℤ × ℤ) (t : List (ℤ × ℤ))
    (o : List ℤ) :
    applyWritesZ data cols b (q :: t) o
      = applyWritesZ data cols b t
          (o.set ((q.1 * (cols : ℤ) + q.2).toNat) (minMsumZ data cols b q.1 q.2)) := rfl

theorem applyWrites_cast (data : List ℤ) (cols b : ℕ) (L : List (ℤ × ℤ)) :
    ∀ o : List ℤ,
      applyWrites (data.map (fun z : ℤ => (z : ℚ))) cols b L
          (o.map (fun z : ℤ => (z : ℚ)))
        = (applyWritesZ data cols b L o).map (fun z : ℤ => (z : ℚ)) := by
  induction L with
  | nil => intro o; rfl
  | cons q t ih =>
    intro o
    rw [applyWrites_cons, applyWritesZ_cons, minMsum_cast, ← List.map_set]
    exact ih _

theorem moravec_cast (data : List ℤ) (rows cols b : ℕ) :
    moravec (data.map (fun z : ℤ => (z : ℚ))) rows cols b
      = (moravecZ data rows cols b).map (fun z : ℤ => (z : ℚ)) := by
  unfold moravec moravecZ
  rw [run_eq]
  have h0 : (List.replicate (rows * cols) (0 : ℚ))
      = (List.replicate (rows * cols) (0 : ℤ)).map (fun z : ℤ => (z : ℚ)) := by
    rw [List.map_replicate]
    norm_num
  show applyWrites (data.map (fun z : ℤ => (z : ℚ))) cols b (interiorPairs rows cols b)
      (List.replicate (rows * cols) (0 : ℚ))
    = (applyWritesZ data cols b (interiorPairs rows cols b)
        (List.replicate (rows * cols) (0 : ℤ))).map (fun z : ℤ => (z : ℚ))
  rw [h0, applyWrites_cast]

theorem getPix_zero {data : List ℚ} (hz : ∀ x ∈ data, x = 0) (a : ℤ) :
    getPix data a = 0 := by
  unfold getPix
  rcases lt_or_le a.toNat data.length with h | h
  · rw [List.getD_eq_getElem _ _ h]
    exact hz _ (List.getElem_mem h)
  · exact List.getD_eq_default _ _ h

theorem msum_zero {data : List ℚ} (hz : ∀ x ∈ data, x = 0) (cols b : ℕ)
    (r c br bc : ℤ) : msum data cols b r c br bc = 0 := by
  unfold msum
  apply List.sum_eq_zero
  intro x hx
  rcases List.mem_map.mp hx with ⟨mr, _, rfl⟩
  apply List.sum_eq_zero
  intro y hy
  rcases List.mem_map.mp hy with ⟨mc, _, rfl⟩
  rw [getPix_zero hz, getPix_zero hz]
  ring

theorem minMsum_zero_data {data : List ℚ} (hz : ∀ x ∈ data, x = 0) (cols b : ℕ)
    (r c : ℤ) (hb : 1 ≤ b) : minMsum data cols b r c = 0 := by
  have h1 := minMsum_le_diag data cols b r c hb
  rw [msum_zero hz] at h1
  exact le_antisymm h1 (minMsum_nonneg data cols b r c)

theorem moravec_all_zero_of_cells (data : List ℚ) (rows cols b : ℕ)
    (h : ∀ r c : ℕ, r < rows → c < cols →
      cell (moravec data rows cols b) (r * cols + c) = 0) :
    moravec data rows cols b = List.replicate (rows * cols) 0 := by
  apply List.ext_getElem
  · rw [moravec_length, List.length_replicate]
  · intro i h1 h2
    rw [List.getElem_replicate]
    have hlen : (moravec data rows cols b).length = rows * cols :=
      moravec_length data rows cols b
    have hi : i < rows * cols := by
      rw [hlen] at h1
      exact h1
    have hcols : 0 < cols := by
      rcases Nat.eq_zero_or_pos cols with h0 | h0
      · rw [h0, Nat.mul_zero] at hi
        exact absurd hi (Nat.not_lt_zero i)
      · exact h0
    have hc : i % cols < cols := Nat.mod_lt i hcols
    have hr : i / cols < rows := Nat.div_lt_of_lt_mul (by rw [mul_comm] at hi; exact hi)
    have hsum : (i / cols) * cols + i % cols = i := by
      rw [mul_comm]
      exact Nat.div_add_mod i cols
    have hcell := h (i / cols) (i % cols) hr hc
    rw [hsum] at hcell
    unfold cell at hcell
    rw [List.getD_eq_getElem _ _ h1] at hcell
    exact hcell

/-- Claim C1: for a 2-D float image (samples in the canonical normalized range
`[0, 1]`; `block_size` is a C `int`, so `b < 2^31`) and any interior pixel
`(r, c)`, the output cell equals the minimum, over exactly the candidate
shifts `(br, bc)` with `br ∈ [r-b, r+b]`, `bc ∈ [c-b, c+b]`, `br ≠ r` AND
`bc ≠ c`, of the windowed SSD of the spec: the cell value is attained at one
such shift and is a lower bound for the SSD of every such shift. -/
theorem moravec_interior_is_min_ssd (data : List ℚ) (rows cols b r c : ℕ)
    (hb : 1 ≤ b) (hb31 : b < 2 ^ 31) (hpix : ∀ x ∈ data, 0 ≤ x ∧ x ≤ 1)
    (hr : 2 * b ≤ r ∧ r + 2 * b < rows) (hc : 2 * b ≤ c ∧ c + 2 * b < cols) :
    (∃ br bc : ℤ, ((r : ℤ) - b ≤ br ∧ br ≤ (r : ℤ) + b)
        ∧ ((c : ℤ) - b ≤ bc ∧ bc ≤ (c : ℤ) + b) ∧ br ≠ (r : ℤ) ∧ bc ≠ (c : ℤ)
        ∧ cell (moravec data rows cols b) (r * cols + c)
            = ssdSpec data cols b r c br bc)
      ∧ ∀ br bc : ℤ, (r : ℤ) - b ≤ br → br ≤ (r : ℤ) + b → (c : ℤ) - b ≤ bc →
          bc ≤ (c : ℤ) + b → br ≠ (r : ℤ) → bc ≠ (c : ℤ) →
          cell (moravec data rows cols b) (r * cols + c)
            ≤ ssdSpec data cols b r c br bc := by
  have hrow : r < rows := by omega
  have hcol : c < cols := by omega
  have hcell : cell (moravec data rows cols b) (r * cols + c)
      = minMsum data cols b r c := by
    rw [moravec_cell data rows cols b r c hrow hcol, if_pos ⟨hr.1, hr.2, hc.1, hc.2⟩]
  constructor
  · obtain ⟨p, hp, hval⟩ := minMsum_attained data cols b r c hb hb31 hpix
    obtain ⟨⟨h1, h2⟩, ⟨h3, h4⟩, h5, h6⟩ := mem_shiftList.mp hp
    refine ⟨p.1, p.2, ⟨by omega, by omega⟩, ⟨by omega, by omega⟩, h5, h6, ?_⟩
    rw [hcell, hval, ssdSpec_eq_msum]
  · intro br bc h1 h2 h3 h4 h5 h6
    rw [hcell, ssdSpec_eq_msum, minMsum_eq_foldMin]
    have hmem : ((br, bc) : ℤ × ℤ) ∈ shiftList b (r : ℤ) (c : ℤ) :=
      mem_shiftList.mpr ⟨⟨by omega, by omega⟩, ⟨by omega, by omega⟩, h5, h6⟩
    exact foldMin_le_mem (fun p : ℤ × ℤ => msum data cols b r c p.1 p.2) hmem DBL_MAX

theorem moravec_interior_is_min_ssd_witness :
    (1 ≤ 1 ∧ 1 < 2 ^ 31 ∧ (∀ x ∈ List.replicate 25 (0 : ℚ), 0 ≤ x ∧ x ≤ 1)
        ∧ (2 * 1 ≤ 2 ∧ 2 + 2 * 1 < 5) ∧ (2 * 1 ≤ 2 ∧ 2 + 2 * 1 < 5))
      ∧ ((∃ br bc : ℤ, ((2 : ℤ) - 1 ≤ br ∧ br ≤ (2 : ℤ) + 1)
            ∧ ((2 : ℤ) - 1 ≤ bc ∧ bc ≤ (2 : ℤ) + 1) ∧ br ≠ (2 : ℤ) ∧ bc ≠ (2 : ℤ)
            ∧ cell (moravec (List.replicate 25 (0 : ℚ)) 5 5 1) (2 * 5 + 2)
                = ssdSpec (List.replicate 25 (0 : ℚ)) 5 1 2 2 br bc)
          ∧ ∀ br bc : ℤ, (2 : ℤ) - 1 ≤ br → br ≤ (2 : ℤ) + 1 → (2 : ℤ) - 1 ≤ bc →
              bc ≤ (2 : ℤ) + 1 → br ≠ (2 : ℤ) → bc ≠ (2 : ℤ) →
              cell (moravec (List.replicate 25 (0 : ℚ)) 5 5 1) (2 * 5 + 2)
                ≤ ssdSpec (List.replicate 25 (0 : ℚ)) 5 1 2 2 br bc) :=
  ⟨⟨le_refl 1, by norm_num, fun x hx => by
      rw [List.eq_of_mem_replicate hx]
      norm_num, ⟨by norm_num, by norm_num⟩, ⟨by norm_num, by norm_num⟩⟩,
    moravec_interior_is_min_ssd (List.replicate 25 (0 : ℚ)) 5 5 1 2 2
      (le_refl 1) (by norm_num)
      (fun x hx => by
        rw [List.eq_of_mem_replicate hx]
        norm_num)
      ⟨by norm_num, by norm_num⟩ ⟨by norm_num, by norm_num⟩⟩

/-- Claim C2: on the 7 x 7 all-zero image with a single 1.0 at (3, 3) and
`block_size = 1`, the function returns exactly the documented response map
(rows 2-4 are `[0,0,1,1,1,0,0]`, `[0,0,1,2,1,0,0]`, `[0,0,1,1,1,0,0]`, every
other cell 0). -/
theorem moravec_impulse_7x7 : moravec sq7 7 7 1 = out7 := by
  have h1 : sq7 = sq7Z.map (fun z : ℤ => (z : ℚ)) := by norm_num [sq7, sq7Z]
  have h2 : out7 = out7Z.map (fun z : ℤ => (z : ℚ)) := by norm_num [out7, out7Z]
  have h3 : moravecZ sq7Z 7 7 1 = out7Z := by decide
  rw [h1, h2, moravec_cast, h3]

/-- Claim C3 is false on the code: `moravec` performs no validation of
`block_size`.  Called with `block_size = 0` on the 1 x 1 image `[[0]]`, the
loops run (the interior is the whole image), no candidate shift passes the
guard, and the function returns the map `[[DBL_MAX]]` instead of rejecting
the call. -/
theorem moravec_blocksize_zero_runs : moravec [0] 1 1 0 = [DBL_MAX] := by
  have h1 : ([0] : List ℚ) = (([0] : List ℤ).map (fun z : ℤ => (z : ℚ))) := by
    norm_num
  have h3 : moravecZ [0] 1 1 0 = [DBL_MAXZ] := by decide
  rw [h1, moravec_cast, h3, DBL_MAX_cast]
  simp

/-- Claim C4 is false on the code: line 60 of `interest_cy.pyx` reads
`image`, not `cimage`, so the grayscale conversion computed on line 59 for a
3-D image is discarded; the buffer the pixel loops read is
`ascontiguousarray(img_as_float(image))` no matter what `rgb2grey` returned.
-/
theorem cimage_grayscale_discarded {I : Type} (rgb2grey img_as_float
    ascontiguousarray : I → I) (image : I) :
    cimageUsed rgb2grey img_as_float ascontiguousarray 3 image
      = ascontiguousarray (img_as_float image) := rfl

/-- Claim C5: for any image and `block_size ≥ 1`, the output has exactly
`rows * cols` cells, and every cell outside the interior range
`[2b, rows-2b) x [2b, cols-2b)` is exactly 0. -/
theorem moravec_border_zero_and_shape (data : List ℚ) (rows cols b : ℕ)
    (hb : 1 ≤ b) :
    (moravec data rows cols b).length = rows * cols
      ∧ ∀ r c : ℕ, r < rows → c < cols →
          ¬(2 * b ≤ r ∧ r + 2 * b < rows ∧ 2 * b ≤ c ∧ c + 2 * b < cols) →
          cell (moravec data rows cols b) (r * cols + c) = 0 := by
  have _ := hb
  refine ⟨moravec_length data rows cols b, ?_⟩
  intro r c hr hc hnot
  rw [moravec_cell data rows cols b r c hr hc, if_neg hnot]

theorem moravec_border_zero_and_shape_witness :
    1 ≤ 1
      ∧ ((moravec [0] 1 1 1).length = 1 * 1
        ∧ ∀ r c : ℕ, r < 1 → c < 1 →
            ¬(2 * 1 ≤ r ∧ r + 2 * 1 < 1 ∧ 2 * 1 ≤ c ∧ c + 2 * 1 < 1) →
            cell (moravec [0] 1 1 1) (r * 1 + c) = 0) :=
  ⟨le_refl 1, moravec_border_zero_and_shape [0] 1 1 1 (le_refl 1)⟩

/-- Claim C6: for any image and `block_size ≥ 1`, every cell of the output
map is ≥ 0 (computed cells are minima over sums of squares seeded with
`DBL_MAX > 0`; border cells are 0). -/
theorem moravec_nonneg (data : List ℚ) (rows cols b : ℕ) (hb : 1 ≤ b)
    (r c : ℕ) (hr : r < rows) (hc : c < cols) :
    0 ≤ cell (moravec data rows cols b) (r * cols + c) := by
  have _ := hb
  rw [moravec_cell data rows cols b r c hr hc]
  split
  · exact minMsum_nonneg data cols b r c
  · exact le_refl 0

theorem moravec_nonneg_witness :
    1 ≤ 1 ∧ 0 < 1 ∧ 0 < 1 ∧ 0 ≤ cell (moravec [0] 1 1 1) (0 * 1 + 0) :=
  ⟨le_refl 1, Nat.zero_lt_one, Nat.zero_lt_one,
    moravec_nonneg [0] 1 1 1 (le_refl 1) 0 0 Nat.zero_lt_one Nat.zero_lt_one⟩

/-- Claim C7: when `rows < 4b + 1` or `cols < 4b + 1` the interior range is
empty and the function returns the all-zero map of the input's shape (no
error path exists in the code). -/
theorem moravec_small_image_all_zero (data : List ℚ) (rows cols b : ℕ)
    (hb : 1 ≤ b) (hsmall : rows < 4 * b + 1 ∨ cols < 4 * b + 1) :
    moravec data rows cols b = List.replicate (rows * cols) 0 := by
  have _ := hb
  apply moravec_all_zero_of_cells
  intro r c hr hc
  rw [moravec_cell data rows cols b r c hr hc, if_neg]
  rintro ⟨h1, h2, h3, h4⟩
  omega

theorem moravec_small_image_all_zero_witness :
    1 ≤ 1 ∧ (2 < 4 * 1 + 1 ∨ 2 < 4 * 1 + 1)
      ∧ moravec [0, 0, 0, 0] 2 2 1 = List.replicate (2 * 2) 0 :=
  ⟨le_refl 1, Or.inl (by norm_num),
    moravec_small_image_all_zero [0, 0, 0, 0] 2 2 1 (le_refl 1)
      (Or.inl (by norm_num))⟩

/-- Claim C8: an all-zero image of any size ≥ 1 x 1 with any `block_size ≥ 1`
produces the all-zero map. -/
theorem moravec_zero_image_all_zero (data : List ℚ) (rows cols b : ℕ)
    (hb : 1 ≤ b) (hrows : 1 ≤ rows) (hcols : 1 ≤ cols)
    (hz : ∀ x ∈ data, x = 0) :
    moravec data rows cols b = List.replicate (rows * cols) 0 := by
  have _ := hrows
  have _ := hcols
  apply moravec_all_zero_of_cells
  intro r c hr hc
  rw [moravec_cell data rows cols b r c hr hc]
  split
  · exact minMsum_zero_data hz cols b r c hb
  · rfl

theorem moravec_zero_image_all_zero_witness :
    1 ≤ 1 ∧ 1 ≤ 7 ∧ 1 ≤ 7 ∧ (∀ x ∈ List.replicate 49 (0 : ℚ), x = 0)
      ∧ moravec (List.replicate 49 (0 : ℚ)) 7 7 1 = List.replicate (7 * 7) 0 :=
  ⟨le_refl 1, by norm_num, by norm_num, fun x hx => List.eq_of_mem_replicate hx,
    moravec_zero_image_all_zero (List.replicate 49 (0 : ℚ)) 7 7 1 (le_refl 1)
      (by norm_num) (by norm_num) (fun x hx => List.eq_of_mem_replicate hx)⟩

/-- Claim C9: the input buffer is never mutated: after the pixel loops run,
the `image_data` buffer holds exactly the data it started with; the only
writes go to the separately allocated `out` buffer. -/
theorem moravec_input_unchanged (data : List ℚ) (rows cols b : ℕ) :
    (run data rows cols b).image_data = data := by
  rw [run_eq]

/-- Claim C10: for `block_size ≥ 1` the guarded candidate-shift set is never
empty (the diagonal neighbour `(r-1, c-1)` always passes), so under the same
input assumptions as C1 the `DBL_MAX` sentinel is always strictly beaten and
never appears in any cell of the returned map. -/
theorem moravec_sentinel_never_appears (data : List ℚ) (rows cols b : ℕ)
    (hb : 1 ≤ b) (hb31 : b < 2 ^ 31) (hpix : ∀ x ∈ data, 0 ≤ x ∧ x ≤ 1) :
    (∀ r c : ℤ, shiftList b r c ≠ [])
      ∧ ∀ r c : ℕ, r < rows → c < cols →
          cell (moravec data rows cols b) (r * cols + c) ≠ DBL_MAX := by
  constructor
  · intro r c
    exact shiftList_ne_nil hb r c
  · intro r c hr hc
    rw [moravec_cell data rows cols b r c hr hc]
    split
    · exact ne_of_lt (minMsum_lt_DBL_MAX data cols b r c hb hb31 hpix)
    · exact (ne_of_lt DBL_MAX_pos)

theorem moravec_sentinel_never_appears_witness :
    (1 ≤ 1 ∧ 1 < 2 ^ 31 ∧ (∀ x ∈ ([0] : List ℚ), 0 ≤ x ∧ x ≤ 1))
      ∧ ((∀ r c : ℤ, shiftList 1 r c ≠ [])
        ∧ ∀ r c : ℕ, r < 1 → c < 1 →
            cell (moravec [0] 1 1 1) (r * 1 + c) ≠ DBL_MAX) :=
  ⟨⟨le_refl 1, by norm_num, fun x hx => by
      rw [List.mem_singleton.mp hx]
      norm_num⟩,
    moravec_sentinel_never_appears [0] 1 1 1 (le_refl 1) (by norm_num)
      (fun x hx => by
        rw [List.mem_singleton.mp hx]
        norm_num)⟩

end Moravec
